import Mathlib

/-!
Verification of the WordleSolver core (src/solver.py) against its
natural-language specification.

Words are modelled as lists of characters (a pandas string Series becomes a
Lean list of words).  The pandas accessors used by the source translate as
follows:

* `words.str.get(i)` on a word: `List.get?` — out-of-range positions give the
  pandas missing value `<NA>`, modelled as `none`.  A boolean mask containing
  `<NA>` keeps a row only when the mask is literally `True` (nullable-boolean
  masking treats `<NA>` as `False`), so a comparison against `<NA>` never
  keeps a row, whether the comparison is `==` or `!=`.
* `words.str.contains(c)` for a single letter: `List.contains`.
* `words.str.count(c)` for a single letter: `List.count`.
* boolean-mask filtering `words[mask]`: `List.filter` (stable, keeps order).
-/

/-- A word: sequence of characters. -/
abbrev Word : Type := List Char

/-- The lowercase alphabet a to z, in order. -/
def azList : List Char := "abcdefghijklmnopqrstuvwxyz".toList

/-- The literal string iterated by letter_probabilities in the source; note
the misordering: after q it goes u, r, s, t, u (the letter u occurs twice). -/
def alphabet_literal : List Char := "abcdefghijklmnopqurstuvwxyz".toList

/-- Keys of a Python dict comprehension over a sequence: first-occurrence
order, duplicates collapsed. -/
def dictKeys (l : List Char) : List Char :=
  l.foldl (fun acc c => if c ∈ acc then acc else acc ++ [c]) []

/-- The key list of the letter dictionary built by letter_probabilities. -/
def letter_keys : List Char := dictKeys alphabet_literal

/-- Total occurrences of a letter across every word of the pool
(`words.str.count(letter).sum()`). -/
def letter_count (words : List Word) (c : Char) : Nat :=
  (words.map (fun w => w.count c)).sum

/-- The normalizing denominator `letters.sum()`: sum of the per-letter
occurrence counts over the dictionary keys. -/
def letter_total (words : List Word) : Nat :=
  (letter_keys.map (letter_count words)).sum

/-- Embedding of letter_probabilities: each dictionary letter mapped to its
occurrence count divided by the grand total.  The source performs the
division unconditionally; a zero total is the pandas 0/0 (NaN) case, which
the rational embedding sends to 0. -/
def letter_probabilities (words : List Word) : List (Char × ℚ) :=
  letter_keys.map
    (fun c => (c, (letter_count words c : ℚ) / (letter_total words : ℚ)))

/-- The raw score accumulated by the loop in word_letter_scores: for each
(letter, probability) item of the letter dictionary, add the probability when
the word contains the letter. -/
def raw_score (words : List Word) (w : Word) : ℚ :=
  ((letter_probabilities words).map
    (fun p => if w.contains p.1 then p.2 else 0)).sum

/-- Embedding of word_letter_scores: each word of the pool mapped to its raw
score divided by the sum of all raw scores. -/
def word_letter_scores (words : List Word) : List (Word × ℚ) :=
  words.map
    (fun w => (w, raw_score words w / (words.map (raw_score words)).sum))

/-- The in-word letter list built by word_choices: the in_place values
followed by every out_of_place letter list, in order. -/
def in_word_letters (in_place : List (Nat × Char))
    (out_of_place : List (Nat × List Char)) : List Char :=
  in_place.map Prod.snd ++ (out_of_place.map Prod.snd).flatten

/-- First filtering pass of word_choices: for every in_place entry the word
must carry that character at that position (`str.get(index) == character`;
an out-of-range index compares as missing, never keeping the row). -/
def pass_in_place (in_place : List (Nat × Char)) (w : Word) : Bool :=
  in_place.all (fun p => w.get? p.1 == some p.2)

/-- Second filtering pass of word_choices: the word must contain every
in-word letter (`str.contains(character)`). -/
def pass_in_word (in_place : List (Nat × Char))
    (out_of_place : List (Nat × List Char)) (w : Word) : Bool :=
  (in_word_letters in_place out_of_place).all (fun c => w.contains c)

/-- Third filtering pass of word_choices: each not_in_word letter may occur
in the word at most as often as it occurs among the in-word letters. -/
def pass_not_in_word (in_place : List (Nat × Char))
    (out_of_place : List (Nat × List Char)) (not_in_word : List Char)
    (w : Word) : Bool :=
  not_in_word.all
    (fun c => w.count c ≤ (in_word_letters in_place out_of_place).count c)

/-- Fourth filtering pass of word_choices: for every out_of_place entry, the
character at that position exists and differs from each listed letter
(`str.get(index) != character`; an out-of-range index compares as missing,
never keeping the row). -/
def pass_out_of_place (out_of_place : List (Nat × List Char)) (w : Word) :
    Bool :=
  out_of_place.all
    (fun p => p.2.all (fun c => (w.get? p.1).any (fun x => x != c)))

/-- Embedding of word_choices: the four sequential filtering passes of the
source, each a fold of boolean-mask filters over the feedback entries. -/
def word_choices (words : List Word) (in_place : List (Nat × Char))
    (out_of_place : List (Nat × List Char)) (not_in_word : List Char) :
    List Word :=
  let in_word := in_word_letters in_place out_of_place
  let w1 := in_place.foldl
    (fun ws p => ws.filter (fun w => w.get? p.1 == some p.2)) words
  let w2 := in_word.foldl
    (fun ws c => ws.filter (fun w => w.contains c)) w1
  let w3 := not_in_word.foldl
    (fun ws c => ws.filter (fun w => w.count c ≤ in_word.count c)) w2
  let w4 := out_of_place.foldl
    (fun ws p => p.2.foldl
      (fun ws c => ws.filter (fun w => (w.get? p.1).any (fun x => x != c)))
      ws) w3
  w4

/-- The conjunction of the four filtering passes. -/
def survives (in_place : List (Nat × Char))
    (out_of_place : List (Nat × List Char)) (not_in_word : List Char)
    (w : Word) : Bool :=
  pass_in_place in_place w && pass_in_word in_place out_of_place w &&
    pass_not_in_word in_place out_of_place not_in_word w &&
    pass_out_of_place out_of_place w

lemma foldl_filter_eq {α β : Type} (q : α → β → Bool) :
    ∀ (l : List α) (ws : List β),
      l.foldl (fun ws x => ws.filter (fun w => q x w)) ws =
        ws.filter (fun w => l.all (fun x => q x w)) := by
  intro l
  induction l with
  | nil => intro ws; simp
  | cons x l ih =>
      intro ws
      rw [List.foldl_cons, ih, List.filter_filter]
      apply List.filter_congr
      intro w _
      simp [Bool.and_comm]

/-- word_choices is the stable filter of the pool by the conjunction of the
four passes. -/
theorem word_choices_eq_filter (words : List Word)
    (in_place : List (Nat × Char)) (out_of_place : List (Nat × List Char))
    (not_in_word : List Char) :
    word_choices words in_place out_of_place not_in_word =
      words.filter (survives in_place out_of_place not_in_word) := by
  simp only [word_choices, foldl_filter_eq]
  simp only [List.filter_filter]
  apply List.filter_congr
  intro w _
  simp only [survives, pass_in_place, pass_in_word, pass_not_in_word,
    pass_out_of_place]
  cases in_place.all (fun p => w.get? p.1 == some p.2) <;>
    cases (in_word_letters in_place out_of_place).all
      (fun c => w.contains c) <;>
    cases not_in_word.all
      (fun c =>
        decide (w.count c ≤ (in_word_letters in_place out_of_place).count c))
      <;>
    cases out_of_place.all
      (fun p => p.2.all (fun c => (w.get? p.1).any (fun x => x != c))) <;>
    rfl

/-- C10: filtering with empty feedback (the defaulted empty dicts and list)
returns the pool unchanged, every word in its original order. -/
theorem word_choices_empty_feedback (words : List Word) :
    word_choices words [] [] [] = words := rfl

/-- C7: the output of the constraint filter is a sublist of the input pool:
every surviving word occurs in the input, and surviving words keep the
relative order they had in the input. -/
theorem word_choices_sublist_of_input (words : List Word)
    (in_place : List (Nat × Char)) (out_of_place : List (Nat × List Char))
    (not_in_word : List Char) :
    (word_choices words in_place out_of_place not_in_word).Sublist words := by
  rw [word_choices_eq_filter]
  exact List.filter_sublist words

/-- C8: the constraint filter is idempotent: filtering an already-filtered
pool with the same feedback state changes nothing. -/
theorem word_choices_idempotent (words : List Word)
    (in_place : List (Nat × Char)) (out_of_place : List (Nat × List Char))
    (not_in_word : List Char) :
    word_choices (word_choices words in_place out_of_place not_in_word)
        in_place out_of_place not_in_word =
      word_choices words in_place out_of_place not_in_word := by
  simp only [word_choices_eq_filter, List.filter_filter]
  apply List.filter_congr
  intro w _
  exact Bool.and_self _

/-- C2 fails on the code: with the pool consisting of the single word axxxx,
feedback notInWord = [a] eliminates the word (threshold 0), yet the strictly
larger feedback that additionally has inPlace = {0: a} keeps it, because the
inPlace entry raises the occurrence threshold for a from 0 to 1.  The
surviving pool grows from 0 to 1 words. -/
theorem word_choices_not_monotone :
    ¬ ((word_choices [['a', 'x', 'x', 'x', 'x']] [(0, 'a')] []
          ['a']).length ≤
        (word_choices [['a', 'x', 'x', 'x', 'x']] [] [] ['a']).length) := by
  decide

/-- C2 amended: growing only notInWord (inPlace and outOfPlace unchanged)
never increases the size of the surviving pool. -/
theorem word_choices_monotone_not_in_word (words : List Word)
    (in_place : List (Nat × Char)) (out_of_place : List (Nat × List Char))
    (not_in_word extra : List Char) :
    (word_choices words in_place out_of_place
        (not_in_word ++ extra)).length ≤
      (word_choices words in_place out_of_place not_in_word).length := by
  rw [word_choices_eq_filter, word_choices_eq_filter]
  apply List.Sublist.length_le
  apply List.monotone_filter_right
  intro w h
  simp only [survives, pass_not_in_word, Bool.and_eq_true,
    List.all_append] at h ⊢
  exact ⟨⟨h.1.1, h.1.2.1⟩, h.2⟩

/-- C9: applying the four filtering passes in any order yields the same
surviving pool as word_choices. -/
theorem word_choices_pass_order_irrelevant (words : List Word)
    (in_place : List (Nat × Char)) (out_of_place : List (Nat × List Char))
    (not_in_word : List Char) (passes : List (Word → Bool))
    (hperm : passes.Perm
      [pass_in_place in_place, pass_in_word in_place out_of_place,
        pass_not_in_word in_place out_of_place not_in_word,
        pass_out_of_place out_of_place]) :
    passes.foldl (fun ws p => ws.filter p) words =
      word_choices words in_place out_of_place not_in_word := by
  have hcomm : ∀ x ∈ passes, ∀ y ∈ passes, ∀ (z : List Word),
      (z.filter x).filter y = (z.filter y).filter x := by
    intro x _ y _ z
    rw [List.filter_filter, List.filter_filter]
    apply List.filter_congr
    intro w _
    exact Bool.and_comm _ _
  rw [hperm.foldl_eq' hcomm words]
  rw [word_choices_eq_filter]
  simp only [List.foldl_cons, List.foldl_nil, List.filter_filter]
  apply List.filter_congr
  intro w _
  cases hp1 : pass_in_place in_place w <;>
    cases hp2 : pass_in_word in_place out_of_place w <;>
    cases hp3 : pass_not_in_word in_place out_of_place not_in_word w <;>
    cases hp4 : pass_out_of_place out_of_place w <;>
    simp [survives, hp1, hp2, hp3, hp4]

/-- Witness for C9 at a concrete pool and feedback, with the first two
passes swapped. -/
theorem word_choices_pass_order_irrelevant_witness :
    ([pass_in_word [(0, 'a')] [(1, ['b'])],
      pass_in_place [(0, 'a')],
      pass_not_in_word [(0, 'a')] [(1, ['b'])] ['c'],
      pass_out_of_place [(1, ['b'])]].foldl (fun ws p => ws.filter p)
        [['a', 'c', 'b'], ['b', 'a', 'c']]) =
      word_choices [['a', 'c', 'b'], ['b', 'a', 'c']] [(0, 'a')]
        [(1, ['b'])] ['c'] :=
  word_choices_pass_order_irrelevant _ _ _ _ _ (List.Perm.swap _ _ _)

/-- C1: a pool word survives word_choices exactly when all four feedback
conditions hold: every in_place entry matches at its position, every in-word
letter occurs in the word, every not_in_word letter occurs at most as often
as it does among the in-word letters, and no out_of_place letter sits at its
forbidden position.  The out_of_place indices are assumed in range for the
word, as the feedback-state invariant requires. -/
theorem word_choices_mem_iff (words : List Word)
    (in_place : List (Nat × Char)) (out_of_place : List (Nat × List Char))
    (not_in_word : List Char) (w : Word)
    (hoop : ∀ p ∈ out_of_place, p.1 < w.length) :
    w ∈ word_choices words in_place out_of_place not_in_word ↔
      w ∈ words ∧
        (∀ p ∈ in_place, w.get? p.1 = some p.2) ∧
        (∀ c ∈ in_word_letters in_place out_of_place, c ∈ w) ∧
        (∀ c ∈ not_in_word,
          w.count c ≤ (in_word_letters in_place out_of_place).count c) ∧
        (∀ p ∈ out_of_place, ∀ c ∈ p.2, ¬ w.get? p.1 = some c) := by
  have hany : ∀ p, p ∈ out_of_place → ∀ c : Char,
      (((w.get? p.1).any (fun x => x != c)) = true ↔
        ¬ w.get? p.1 = some c) := by
    intro p hp c
    rw [List.get?_eq_get (hoop p hp)]
    simp
  rw [word_choices_eq_filter, List.mem_filter]
  simp only [survives, Bool.and_eq_true, pass_in_place, pass_in_word,
    pass_not_in_word, pass_out_of_place, List.all_eq_true, beq_iff_eq,
    decide_eq_true_eq]
  constructor
  · rintro ⟨hw, ⟨⟨h1, h2⟩, h3⟩, h4⟩
    refine ⟨hw, h1, ?_, h3, ?_⟩
    · intro c hc
      exact List.elem_iff.mp (h2 c hc)
    · intro p hp c hc
      exact (hany p hp c).mp (h4 p hp c hc)
  · rintro ⟨hw, h1, h2, h3, h4⟩
    refine ⟨hw, ⟨⟨h1, ?_⟩, h3⟩, ?_⟩
    · intro c hc
      exact List.elem_iff.mpr (h2 c hc)
    · intro p hp c hc
      exact (hany p hp c).mpr (h4 p hp c hc)

/-- Witness for C1 at a concrete pool, feedback state and word. -/
theorem word_choices_mem_iff_witness :
    ['a', 'b'] ∈ word_choices [['a', 'b'], ['b', 'a']] [(0, 'a')]
        [(1, ['a'])] ['b'] ↔
      ['a', 'b'] ∈ [[('a' : Char), 'b'], ['b', 'a']] ∧
        (∀ p ∈ [((0 : Nat), 'a')], ['a', 'b'].get? p.1 = some p.2) ∧
        (∀ c ∈ in_word_letters [(0, 'a')] [(1, ['a'])], c ∈ ['a', 'b']) ∧
        (∀ c ∈ ['b'],
          ['a', 'b'].count c ≤
            (in_word_letters [(0, 'a')] [(1, ['a'])]).count c) ∧
        (∀ p ∈ [((1 : Nat), ['a'])], ∀ c ∈ p.2,
          ¬ ['a', 'b'].get? p.1 = some c) :=
  word_choices_mem_iff _ _ _ _ _ (by decide)

/-- C4 fails on the code: the source defines no error for an out-of-range
feedback position and performs no check when feedback is recorded.  With a
five-letter pool and the in_place entry (5, a), word_choices silently
returns the empty pool at filtering time: str.get(5) is the missing value,
the equality mask is never true, and every word is dropped. -/
theorem word_choices_out_of_range_silent :
    word_choices [['a', 'p', 'p', 'l', 'e']] [(5, 'a')] [] [] = [] := by
  decide

/-- C4 amended: an out-of-range in_place position is accepted without any
error; at filtering time the position lookup yields no character, the
equality never holds, and the filter silently empties the pool. -/
theorem word_choices_out_of_range_empties_pool (words : List Word)
    (in_place : List (Nat × Char)) (out_of_place : List (Nat × List Char))
    (not_in_word : List Char) (i : Nat) (c : Char)
    (hmem : (i, c) ∈ in_place) (hlen : ∀ w ∈ words, w.length ≤ i) :
    word_choices words in_place out_of_place not_in_word = [] := by
  rw [word_choices_eq_filter]
  rw [List.filter_eq_nil_iff]
  intro w hw hs
  simp only [survives, Bool.and_eq_true] at hs
  have h1 := List.all_eq_true.mp hs.1.1.1 (i, c) hmem
  rw [List.get?_eq_none.mpr (hlen w hw)] at h1
  simp at h1

/-- Witness for the amended C4 at a concrete pool and feedback state. -/
theorem word_choices_out_of_range_empties_pool_witness :
    word_choices [['g', 'r', 'a', 'p', 'e']] [(7, 'z')] [] ['q'] = [] :=
  word_choices_out_of_range_empties_pool _ _ _ _ 7 'z' (by decide)
    (by decide)

/-- C3 fails on the code: letter_probabilities contains no error path at
all.  On the empty pool it still returns its 26-entry mapping while the
normalizing total is 0: the division by zero is performed silently (pandas
produces NaN for every letter; no EmptyPoolError exists in the source). -/
theorem letter_probabilities_empty_pool_silent :
    (letter_probabilities []).length = 26 ∧ letter_total [] = 0 := by
  decide

/-- C3 amended: on the empty pool letter_probabilities raises nothing:
every letter count is 0, the normalizing total is 0, and the division is
still carried out with the zero denominator (NaN in pandas; the rational
embedding sends 0/0 to 0), yielding all 26 entries. -/
theorem letter_probabilities_empty_pool_behavior :
    letter_total [] = 0 ∧
      (letter_probabilities []).map Prod.snd = List.replicate 26 0 ∧
      (letter_probabilities []).map Prod.fst = letter_keys := by
  refine ⟨rfl, ?_, by simp [letter_probabilities, List.map_map,
    Function.comp_def]⟩
  have h : (letter_probabilities []).map Prod.snd =
      letter_keys.map (fun _ => (0 : ℚ)) := by
    simp [letter_probabilities, List.map_map, Function.comp_def,
      letter_count]
  rw [h, show (26 : Nat) = letter_keys.length from rfl]
  exact List.map_const' _ _

lemma letter_keys_perm_az : letter_keys.Perm azList := by decide

lemma mem_letter_keys_of_az {c : Char} (h : c ∈ azList) : c ∈ letter_keys :=
  letter_keys_perm_az.mem_iff.mpr h

lemma list_sum_div {α : Type} (l : List α) (f : α → ℚ) (T : ℚ) :
    (l.map (fun x => f x / T)).sum = (l.map f).sum / T := by
  induction l with
  | nil => simp
  | cons x l ih => simp [ih, add_div]

lemma cast_sum_map {α : Type} (l : List α) (f : α → Nat) :
    (((l.map f).sum : Nat) : ℚ) = (l.map (fun x => ((f x : Nat) : ℚ))).sum := by
  induction l with
  | nil => simp
  | cons x l ih => simp [ih]

lemma le_letter_count {words : List Word} {w : Word} {c : Char}
    (hw : w ∈ words) (hc : c ∈ w) : 1 ≤ letter_count words c := by
  have h1 : 0 < w.count c := List.count_pos_iff.mpr hc
  have h2 : w.count c ≤ letter_count words c :=
    List.single_le_sum (fun y _ => Nat.zero_le y) _
      (List.mem_map_of_mem _ hw)
  omega

lemma le_letter_total {words : List Word} {c : Char}
    (hc : c ∈ letter_keys) :
    letter_count words c ≤ letter_total words :=
  List.single_le_sum (fun y _ => Nat.zero_le y) _
    (List.mem_map_of_mem _ hc)

lemma letter_total_pos {words : List Word} {w : Word} {c : Char}
    (hw : w ∈ words) (hc : c ∈ w) (haz : c ∈ azList) :
    0 < letter_total words := by
  have h1 := le_letter_count hw hc
  have h2 := @le_letter_total words c (mem_letter_keys_of_az haz)
  omega

/-- C5: on a non-empty pool of non-empty lowercase words, the result of
letter_probabilities is a mapping whose key multiset is exactly the 26
letters a to z, whose values are all nonnegative and sum to 1, and which
maps a letter absent from every pool word to 0. -/
theorem letter_probabilities_distribution (words : List Word)
    (hne : words ≠ [])
    (hwords : ∀ w ∈ words, w ≠ [] ∧ ∀ c ∈ w, c ∈ azList) :
    ((letter_probabilities words).map Prod.fst).Perm azList ∧
      (∀ p ∈ letter_probabilities words, 0 ≤ p.2) ∧
      ((letter_probabilities words).map Prod.snd).sum = 1 ∧
      (∀ p ∈ letter_probabilities words,
        (∀ w ∈ words, p.1 ∉ w) → p.2 = 0) := by
  obtain ⟨w0, hw0⟩ := List.exists_mem_of_ne_nil words hne
  obtain ⟨hw0ne, hw0az⟩ := hwords w0 hw0
  obtain ⟨c0, hc0⟩ := List.exists_mem_of_ne_nil w0 hw0ne
  have hT : 0 < letter_total words := letter_total_pos hw0 hc0 (hw0az c0 hc0)
  have hTQ : ((letter_total words : ℚ)) ≠ 0 := by
    exact_mod_cast Nat.pos_iff_ne_zero.mp hT
  refine ⟨?_, ?_, ?_, ?_⟩
  · have hfst : (letter_probabilities words).map Prod.fst = letter_keys := by
      simp [letter_probabilities, List.map_map, Function.comp_def]
    rw [hfst]
    exact letter_keys_perm_az
  · intro p hp
    simp only [letter_probabilities, List.mem_map] at hp
    obtain ⟨c, _, rfl⟩ := hp
    exact div_nonneg (Nat.cast_nonneg _) (Nat.cast_nonneg _)
  · rw [letter_probabilities, List.map_map]
    have hsnd : (Prod.snd ∘ fun c =>
        ((c, (letter_count words c : ℚ) / (letter_total words : ℚ)) :
          Char × ℚ)) =
        fun c => (letter_count words c : ℚ) / (letter_total words : ℚ) := rfl
    rw [hsnd, list_sum_div]
    have hcast : ((letter_total words : Nat) : ℚ) =
        (letter_keys.map fun c => ((letter_count words c : Nat) : ℚ)).sum := by
      rw [letter_total, cast_sum_map]
    rw [← hcast]
    exact div_self hTQ
  · intro p hp habs
    simp only [letter_probabilities, List.mem_map] at hp
    obtain ⟨c, _, rfl⟩ := hp
    have hcz : letter_count words c = 0 := by
      simp only [letter_count]
      apply List.sum_eq_zero
      intro x hx
      simp only [List.mem_map] at hx
      obtain ⟨w, hw, rfl⟩ := hx
      exact List.count_eq_zero.mpr (habs w hw)
    simp [hcz]

/-- Witness for C5 at the concrete two-word pool [ab, ba]. -/
theorem letter_probabilities_distribution_witness :
    (([['a', 'b'], ['b', 'a']] : List Word) ≠ [] ∧
      (∀ w ∈ ([['a', 'b'], ['b', 'a']] : List Word),
        w ≠ [] ∧ ∀ c ∈ w, c ∈ azList)) ∧
      (((letter_probabilities [['a', 'b'], ['b', 'a']]).map
          Prod.fst).Perm azList ∧
        (∀ p ∈ letter_probabilities [['a', 'b'], ['b', 'a']], 0 ≤ p.2) ∧
        ((letter_probabilities [['a', 'b'], ['b', 'a']]).map
          Prod.snd).sum = 1 ∧
        (∀ p ∈ letter_probabilities [['a', 'b'], ['b', 'a']],
          (∀ w ∈ [['a', 'b'], ['b', 'a']], p.1 ∉ w) → p.2 = 0)) :=
  ⟨⟨by decide, by decide⟩,
    letter_probabilities_distribution _ (by decide) (by decide)⟩

lemma letter_keys_nodup : letter_keys.Nodup := by decide

lemma raw_score_eq (words : List Word) (w : Word) :
    raw_score words w =
      (letter_keys.map (fun c => if w.contains c then
        (letter_count words c : ℚ) / (letter_total words : ℚ) else 0)).sum := by
  rw [raw_score, letter_probabilities, List.map_map]
  rfl

lemma sum_ite_contains (keys : List Char) (hk : keys.Nodup) (w : List Char)
    (hsub : ∀ c ∈ w, c ∈ keys) (f : Char → ℚ) :
    (keys.map (fun c => if w.contains c then f c else 0)).sum =
      (w.dedup.map f).sum := by
  have hpt : keys.map (fun c => if w.contains c then f c else 0) =
      keys.map (fun c => if c ∈ w then f c else 0) := by
    apply List.map_congr_left
    intro c _
    by_cases hc : c ∈ w
    · rw [if_pos (List.elem_iff.mpr hc), if_pos hc]
    · rw [if_neg (fun h => hc (List.elem_iff.mp h)), if_neg hc]
  rw [hpt, ← List.sum_toFinset _ hk, ← Finset.sum_filter]
  have hset : keys.toFinset.filter (fun c => c ∈ w) = w.dedup.toFinset := by
    ext c
    simp only [Finset.mem_filter, List.mem_toFinset, List.mem_dedup]
    exact ⟨fun h => h.2, fun hc => ⟨hsub c hc, hc⟩⟩
  rw [hset, List.sum_toFinset _ (List.nodup_dedup w)]

lemma ite_prob_nonneg (words : List Word) (w : Word) (c : Char) :
    0 ≤ (if w.contains c then
      (letter_count words c : ℚ) / (letter_total words : ℚ) else 0) := by
  split
  · exact div_nonneg (Nat.cast_nonneg _) (Nat.cast_nonneg _)
  · exact le_refl 0

lemma raw_score_nonneg (words : List Word) (w : Word) :
    0 ≤ raw_score words w := by
  rw [raw_score_eq]
  apply List.sum_nonneg
  intro x hx
  simp only [List.mem_map] at hx
  obtain ⟨c, _, rfl⟩ := hx
  exact ite_prob_nonneg words w c

lemma raw_score_pos {words : List Word} {w : Word} (hw : w ∈ words)
    (hwne : w ≠ []) (haz : ∀ c ∈ w, c ∈ azList) :
    0 < raw_score words w := by
  obtain ⟨c0, hc0⟩ := List.exists_mem_of_ne_nil w hwne
  have hpos : 0 <
      (letter_count words c0 : ℚ) / (letter_total words : ℚ) := by
    apply div_pos
    · exact_mod_cast le_letter_count hw hc0
    · exact_mod_cast letter_total_pos hw hc0 (haz c0 hc0)
  have hterm : (if w.contains c0 then
      (letter_count words c0 : ℚ) / (letter_total words : ℚ) else 0) =
      (letter_count words c0 : ℚ) / (letter_total words : ℚ) :=
    if_pos (List.elem_iff.mpr hc0)
  have hle : (if w.contains c0 then
      (letter_count words c0 : ℚ) / (letter_total words : ℚ) else 0) ≤
      (letter_keys.map (fun c => if w.contains c then
        (letter_count words c : ℚ) / (letter_total words : ℚ) else 0)).sum := by
    apply List.single_le_sum
    · intro x hx
      simp only [List.mem_map] at hx
      obtain ⟨c, _, rfl⟩ := hx
      exact ite_prob_nonneg words w c
    · exact List.mem_map_of_mem _ (mem_letter_keys_of_az (haz c0 hc0))
  rw [raw_score_eq]
  calc (0 : ℚ) < (letter_count words c0 : ℚ) / (letter_total words : ℚ) :=
        hpos
    _ ≤ _ := hterm ▸ hle

lemma scores_total_pos {words : List Word} (hne : words ≠ [])
    (hwords : ∀ w ∈ words, w ≠ [] ∧ ∀ c ∈ w, c ∈ azList) :
    0 < (words.map (raw_score words)).sum := by
  obtain ⟨w0, hw0⟩ := List.exists_mem_of_ne_nil words hne
  have h0 := raw_score_pos hw0 (hwords w0 hw0).1 (hwords w0 hw0).2
  have hle : raw_score words w0 ≤ (words.map (raw_score words)).sum := by
    apply List.single_le_sum
    · intro x hx
      simp only [List.mem_map] at hx
      obtain ⟨w, _, rfl⟩ := hx
      exact raw_score_nonneg words w
    · exact List.mem_map_of_mem _ hw0
  exact lt_of_lt_of_le h0 hle

/-- C6: on a non-empty pool of non-empty lowercase words, every entry of
word_letter_scores carries the word's raw score — the sum of the letter
frequency probabilities of its distinct letters, each letter credited once —
divided by the sum of all raw scores, and the returned scores sum to 1 over
the pool. -/
theorem word_letter_scores_spec (words : List Word) (hne : words ≠ [])
    (hwords : ∀ w ∈ words, w ≠ [] ∧ ∀ c ∈ w, c ∈ azList) :
    (∀ p ∈ word_letter_scores words,
        p.2 = ((p.1.dedup.map (fun c =>
            (letter_count words c : ℚ) / (letter_total words : ℚ))).sum) /
          ((words.map (raw_score words)).sum)) ∧
      ((word_letter_scores words).map Prod.snd).sum = 1 := by
  constructor
  · intro p hp
    simp only [word_letter_scores, List.mem_map] at hp
    obtain ⟨w, hw, rfl⟩ := hp
    dsimp only
    congr 1
    rw [raw_score_eq]
    exact sum_ite_contains letter_keys letter_keys_nodup w
      (fun c hc => mem_letter_keys_of_az ((hwords w hw).2 c hc)) _
  · have hS := scores_total_pos hne hwords
    rw [word_letter_scores, List.map_map]
    have hsnd : (Prod.snd ∘ fun w =>
        ((w, raw_score words w / (words.map (raw_score words)).sum) :
          Word × ℚ)) =
        fun w => raw_score words w / (words.map (raw_score words)).sum := rfl
    rw [hsnd, list_sum_div]
    exact div_self (ne_of_gt hS)

/-- Witness for C6 at the concrete two-word pool [ab, ca]. -/
theorem word_letter_scores_spec_witness :
    (([['a', 'b'], ['c', 'a']] : List Word) ≠ [] ∧
      (∀ w ∈ ([['a', 'b'], ['c', 'a']] : List Word),
        w ≠ [] ∧ ∀ c ∈ w, c ∈ azList)) ∧
      ((∀ p ∈ word_letter_scores [['a', 'b'], ['c', 'a']],
          p.2 = ((p.1.dedup.map (fun c =>
              (letter_count [['a', 'b'], ['c', 'a']] c : ℚ) /
                (letter_total [['a', 'b'], ['c', 'a']] : ℚ))).sum) /
            (([['a', 'b'], ['c', 'a']] :
              List Word).map (raw_score [['a', 'b'], ['c', 'a']])).sum) ∧
        ((word_letter_scores [['a', 'b'], ['c', 'a']]).map
          Prod.snd).sum = 1) :=
  ⟨⟨by decide, by decide⟩,
    word_letter_scores_spec _ (by decide) (by decide)⟩
